import Mathlib

/-!
# update.go: the profile README generator

A shallow embedding of `update.go` and the properties of its rendering,
shuffling and substitution steps.

Go strings and byte slices are modelled as Lean strings.  Every delimiter the
program inspects (the slash, the host prefix, the two placeholders) is ASCII,
so on UTF-8 text the character-level reading used here coincides with the
byte-level one of the Go runtime.

Side effects are made explicit:
* the network is a function from a URL to a response or a transport error;
* the JSON decoder is a function from a body to a count or a decode error;
* the shuffle generator is the list of values returned by `r.Intn`;
* the default generator is the sequence of values returned by `rand.Int`.
-/

set_option maxRecDepth 100000

namespace Update

/-! ## Data model -/

/-- The `project` struct of update.go. -/
structure project where
  Icon : String
  Name : String
  Link : String
  Description : String
  Tags : List String
deriving DecidableEq, Repr

/-- The `profile` struct of update.go. -/
structure profile where
  Projects : List project
deriving DecidableEq, Repr

/-! ## Library functions used by the program -/

/-- Go `strings.HasPrefix`. -/
def HasPrefix (s pre : String) : Bool :=
  pre.data.isPrefixOf s.data

/-- Strip trailing slashes: the first loop of Go `path.Base`. -/
def stripTrailingSlashes (p : List Char) : List Char :=
  (p.reverse.dropWhile (fun c => c == '/')).reverse

/-- The text after the last slash, the whole text when there is no slash:
`path[LastIndexByte(path, '/')+1:]`, with `LastIndexByte = -1` when absent. -/
def afterLastSlash (p : List Char) : List Char :=
  (p.reverse.takeWhile (fun c => c != '/')).reverse

/-- Go `path.Base`: the last element of a path.  Trailing slashes are removed
before extracting the last element; the empty path gives ".", a path made of
slashes only gives "/". -/
def Base (path : String) : String :=
  if path = "" then "."
  else
    let p := afterLastSlash (stripTrailingSlashes path.data)
    if p = [] then "/" else String.mk p

/-- Go `fmt.Sprintf("%d", n)` for an integer: its decimal representation. -/
def fmtInt (n : Int) : String := toString n

/-- The scanning loop of Go `strings.ReplaceAll` / `bytes.ReplaceAll` for a
non-empty `old`: left to right, every match of `old` is replaced by `new` and
the scan resumes after the match.  The counter is the number of characters of
the current match still to be skipped. -/
def replaceAux (old new : List Char) : Nat → List Char → List Char
  | _, [] => []
  | skip + 1, _ :: cs => replaceAux old new skip cs
  | 0, c :: cs =>
    if old.isPrefixOf (c :: cs) then new ++ replaceAux old new (old.length - 1) cs
    else c :: replaceAux old new 0 cs

/-- Go `strings.ReplaceAll(s, old, new)` and `bytes.ReplaceAll`, for the
non-empty patterns the program uses. -/
def ReplaceAll (s old new : String) : String :=
  String.mk (replaceAux old.data new.data 0 s.data)

/-! ## Project renderer -/

/-- Result of a fallible Go call `(value, error)`. -/
abbrev Result (α : Type) := Except String α

/-- The display name computed at the top of the loop body of
`makeProjectMarkdown`. -/
def displayName (p : project) : String :=
  if p.Name = "" then Base p.Link else p.Name

/-- The `tagMarkdown` variable of `makeProjectMarkdown`: the inner loop over
the tags. -/
def tagMarkdown (tags : List String) : String :=
  if tags.length != 0 then
    tags.foldl (fun acc tag => acc ++ (" `" ++ tag ++ "`")) "/"
  else ""

/-- The `starMarkdown` variable of `makeProjectMarkdown`; `fetch` stands for
`getRepoStarCount`. -/
def starMarkdown (fetch : String → Result Int) (link : String) : String :=
  if HasPrefix link "https://github.com/" then
    match fetch link with
    | .error _ => ""
    | .ok starCount =>
      if starCount != 0 then
        "/ [★" ++ fmtInt starCount ++ "](" ++ link ++ "/stargazers)"
      else ""
  else ""

/-- One iteration of the loop of `makeProjectMarkdown`: the line appended to
`projectMarkdown`. -/
def projectLine (fetch : String → Result Int) (p : project) : String :=
  "- " ++ p.Icon ++ " [" ++ displayName p ++ "](" ++ p.Link ++ ") - " ++ p.Description
    ++ " " ++ starMarkdown fetch p.Link ++ " " ++ tagMarkdown p.Tags ++ "\n"

/-- The function `makeProjectMarkdown` of update.go, with the star-count fetch
as a parameter. -/
def makeProjectMarkdown (fetch : String → Result Int) (projects : List project) : String :=
  projects.foldl (fun projectMarkdown p => projectMarkdown ++ projectLine fetch p) ""

/-! ## Star-count fetch -/

/-- An HTTP response: status code and body. -/
structure Response where
  StatusCode : Nat
  Body : String
deriving DecidableEq, Repr

/-- Go `errors.Wrap(err, message)`. -/
def wrap (err message : String) : String := message ++ ": " ++ err

/-- The function `getRepoStarCount` of update.go.  `httpGet` stands for
`http.Get` (an error is a transport failure; a response of any status is not
an error), `decode` for decoding the body into `repoMeta` and reading
`StargazersCount`. -/
def getRepoStarCount (httpGet : String → Result Response) (decode : String → Result Int)
    (link : String) : Result Int :=
  let link := ReplaceAll link "https://github.com/" "https://api.github.com/repos/"
  match httpGet link with
  | .error err => .error (wrap err "request GitHub API")
  | .ok resp =>
    match decode resp.Body with
    | .error err => .error (wrap err "unmarshal")
    | .ok stargazersCount => .ok stargazersCount

/-! ## Decoration picker -/

/-- The assignment `slice[i], slice[j] = slice[j], slice[i]`: both right-hand
sides are read first, then position `i` and position `j` are written.  An index
outside the slice panics. -/
def swap (slice : List String) (i j : Nat) : Option (List String) :=
  match slice[j]?, slice[i]? with
  | some atJ, some atI => some ((slice.set i atJ).set j atI)
  | _, _ => none

/-- The loop of `shuffle`.  The first argument is `len(slice)` of the current
view `slice[:n]` of the backing array, the second the values still to be
returned by `r.Intn`.  `r.Intn(n)` lies in `[0, n)`; a value outside the view
would panic on indexing, and so would a generator that has no value left. -/
def shuffleLoop : Nat → List Nat → List String → Option (List String)
  | 0, _, slice => some slice
  | _ + 1, [], _ => none
  | n + 1, randIndex :: rest, slice =>
    if randIndex < n + 1 then
      (swap slice n randIndex).bind (shuffleLoop n rest)
    else none

/-- The function `shuffle` of update.go, returning the backing array after
the in-place shuffle. -/
def shuffle (picks : List Nat) (slice : List String) : Option (List String) :=
  shuffleLoop slice.length picks slice

/-- The hardcoded catalog `tarots` of `getRandomTarot`. -/
def tarots : List String :=
  [
    "cups01.jpg", "cups02.jpg", "cups03.jpg", "cups04.jpg", "cups05.jpg", "cups06.jpg",
    "cups07.jpg", "cups08.jpg", "cups09.jpg", "cups10.jpg", "cups11.jpg", "cups12.jpg",
    "cups13.jpg", "cups14.jpg", "maj00.jpg", "maj01.jpg", "maj02.jpg", "maj03.jpg",
    "maj04.jpg", "maj05.jpg", "maj06.jpg", "maj07.jpg", "maj08.jpg", "maj09.jpg",
    "maj10.jpg", "maj11.jpg", "maj12.jpg", "maj13.jpg", "maj14.jpg", "maj15.jpg",
    "maj16.jpg", "maj17.jpg", "maj18.jpg", "maj19.jpg", "maj20.jpg", "maj21.jpg",
    "pents01.jpg", "pents02.jpg", "pents03.jpg", "pents04.jpg", "pents05.jpg", "pents06.jpg",
    "pents07.jpg", "pents08.jpg", "pents09.jpg", "pents10.jpg", "pents11.jpg", "pents12.jpg",
    "pents13.jpg", "pents14.jpg", "swords01.jpg", "swords02.jpg", "swords03.jpg", "swords04.jpg",
    "swords05.jpg", "swords06.jpg", "swords07.jpg", "swords08.jpg", "swords09.jpg", "swords10.jpg",
    "swords11.jpg", "swords12.jpg", "swords13.jpg", "swords14.jpg", "wands01.jpg", "wands02.jpg",
    "wands03.jpg", "wands04.jpg", "wands05.jpg", "wands06.jpg", "wands07.jpg", "wands08.jpg",
    "wands09.jpg", "wands10.jpg", "wands11.jpg", "wands12.jpg", "wands13.jpg", "wands14.jpg"
  ]

/-- The `reverse` attribute of `getRandomTarot`. -/
def reverse : String := "style=\"transform: rotate(180deg);\""

/-- The image tag without rotation (first `Sprintf` of `getRandomTarot`). -/
def plainTag (tarot : String) : String :=
  "<img src=\"https://raw.githubusercontent.com/Altonhe/Altonhe/master/tarot/" ++ tarot
    ++ "\" width=\"25" ++ "%" ++ "\" />"

/-- The image tag with rotation (second `Sprintf` of `getRandomTarot`). -/
def rotatedTag (tarot : String) : String :=
  "<img " ++ reverse ++ " src=\"https://raw.githubusercontent.com/Altonhe/Altonhe/master/tarot/"
    ++ tarot ++ "\" width=\"25" ++ "%" ++ "\" />"

/-- The rendering loop of `getRandomTarot`; `coins k` is the value of the
`k`-th call of `rand.Int()`. -/
def tarotLoop (coins : Nat → Nat) : Nat → List String → String → String
  | _, [], tarotsMarkdown => tarotsMarkdown
  | k, tarot :: rest, tarotsMarkdown =>
    if coins k % 2 != 0 then
      tarotLoop coins (k + 1) rest (tarotsMarkdown ++ plainTag tarot)
    else
      tarotLoop coins (k + 1) rest (tarotsMarkdown ++ rotatedTag tarot)

/-- The function `getRandomTarot` of update.go. -/
def getRandomTarot (picks : List Nat) (coins : Nat → Nat) : Option String :=
  match shuffle picks tarots with
  | none => none
  | some shuffled => some (tarotLoop coins 0 (shuffled.take 3) "")

/-! ## Template substitution -/

/-- The placeholder replaced by the project section. -/
def projectsToken : String := "\x7b\x7bPROJECTS\x7d\x7d"

/-- The placeholder replaced by the decoration section. -/
def tarotsToken : String := "\x7b\x7bTAROTS\x7d\x7d"

/-- The two substitutions of `main`, in its order. -/
def substitute (readme projectsMarkdown tarotsMarkdown : String) : String :=
  ReplaceAll (ReplaceAll readme projectsToken projectsMarkdown) tarotsToken tarotsMarkdown

/-- The rendering part of `main`: from the parsed profile and the template to
the bytes written to README.md. -/
def render (fetch : String → Result Int) (picks : List Nat) (coins : Nat → Nat)
    (prof : profile) (readme : String) : Option String :=
  match getRandomTarot picks coins with
  | none => none
  | some tarotsMarkdown =>
    some (substitute readme (makeProjectMarkdown fetch prof.Projects) tarotsMarkdown)

/-- The number of positions of `s` at which `pat` occurs. -/
def occurrences (pat : List Char) : List Char → Nat
  | [] => 0
  | c :: cs => (if pat.isPrefixOf (c :: cs) then 1 else 0) + occurrences pat cs

/-- The text `s` contains the text `pat`. -/
def containsText (s pat : String) : Prop := pat.data <:+: s.data

/-- The text `s` contains `a` and, after it, `b`. -/
def containsInOrder (s a b : String) : Prop :=
  ∃ x y z : List Char, s.data = x ++ a.data ++ y ++ b.data ++ z

/-- A status code of the 2xx class. -/
def is2xx (status : Nat) : Prop := 200 ≤ status ∧ status < 300

/-- The URL requested by `getRepoStarCount` for a project link. -/
def apiURL (link : String) : String :=
  ReplaceAll link "https://github.com/" "https://api.github.com/repos/"

/-- A server that answers every request with status 404 and the body
`{"message":"Not Found"}`. -/
def notFoundServer : String → Result Response :=
  fun _ => .ok ⟨404, "\x7b\"message\":\"Not Found\"\x7d"⟩

/-- A decoder that reads the body `{"message":"Not Found"}` as an object
without a `stargazers_count` field, leaving the count at its zero value, and
the body `{"stargazers_count":57}` as the count 57; it rejects any other
body. -/
def sampleDecode : String → Result Int :=
  fun body =>
    if body = "\x7b\"message\":\"Not Found\"\x7d" then .ok 0
    else if body = "\x7b\"stargazers_count\":57\x7d" then .ok 57
    else .error "invalid character"

/-- Index sequences accepted by `shuffle` on a slice of length `n`: exactly
`n` picks, the `k`-th one drawn from `[0, n - k)`. -/
def validPicks : Nat → List Nat → Bool
  | 0, [] => true
  | n + 1, p :: ps => decide (p < n + 1) && validPicks n ps
  | _, _ => false

/-- The pattern `pat` cannot straddle an occurrence of the word `w`: it is not
inside `w`, does not contain `w`, and neither ends with a non-empty beginning
of `w` nor begins with a non-empty end of `w`. -/
def Separated (pat w : List Char) : Prop :=
  ¬ pat <:+: w ∧ ¬ w <:+: pat
    ∧ (∀ v ∈ w.inits, v ≠ [] → ¬ v <:+ pat)
    ∧ (∀ v ∈ w.tails, v ≠ [] → ¬ v <+: pat)

/-- A template holding each placeholder once. -/
def sampleReadme : String :=
  "## Projects\n\x7b\x7bPROJECTS\x7d\x7d\n## Tarots\n\x7b\x7bTAROTS\x7d\x7d\n"

/-- A project entry whose description spells the project placeholder. -/
def echoProject : project :=
  ⟨"📦", "Echo", "https://example.org/echo", "expands \x7b\x7bPROJECTS\x7d\x7d", ["Go"]⟩

/-- A project entry without braces. -/
def plainProject : project :=
  ⟨"🔮", "", "https://example.org/wuhan005/Elaina", "Docker-based remote code runner",
    ["Docker"]⟩

/-- A fetch stub that always fails. -/
def offline : String → Result Int := fun _ => .error "request GitHub API: offline"

/-- The decoration section produced when every shuffle pick is 0 and the
`k`-th coin is `k`. -/
def sampleTarots : String :=
  "<img style=\"transform: rotate(180deg);\" src=\"https://raw.githubusercontent.com/Altonhe/Altonhe/master/tarot/cups02.jpg\" width=\"25%\" /><img src=\"https://raw.githubusercontent.com/Altonhe/Altonhe/master/tarot/cups03.jpg\" width=\"25%\" /><img style=\"transform: rotate(180deg);\" src=\"https://raw.githubusercontent.com/Altonhe/Altonhe/master/tarot/cups04.jpg\" width=\"25%\" />"

/-! ## Theorems: project renderer -/

theorem foldl_line_acc (fetch : String → Result Int) (xs : List project) (acc : String) :
    xs.foldl (fun projectMarkdown p => projectMarkdown ++ projectLine fetch p) acc
      = acc ++ makeProjectMarkdown fetch xs := by
  induction xs using List.reverseRecOn with
  | nil => simp [makeProjectMarkdown]
  | append_singleton xs x ih =>
    simp only [makeProjectMarkdown, List.foldl_append, List.foldl_cons, List.foldl_nil]
    rw [ih, String.append_assoc]
    congr 1

theorem makeProjectMarkdown_cons (fetch : String → Result Int) (x : project)
    (xs : List project) :
    makeProjectMarkdown fetch (x :: xs) = projectLine fetch x ++ makeProjectMarkdown fetch xs := by
  show List.foldl _ ("" ++ projectLine fetch x) xs = _
  rw [foldl_line_acc]
  simp

theorem makeProjectMarkdown_append (fetch : String → Result Int) (xs ys : List project) :
    makeProjectMarkdown fetch (xs ++ ys)
      = makeProjectMarkdown fetch xs ++ makeProjectMarkdown fetch ys := by
  show List.foldl _ "" (xs ++ ys) = _
  rw [List.foldl_append]
  exact foldl_line_acc fetch ys _

/-- C1: for every fetch stub `makeProjectMarkdown` is a total function that
emits, for each project, the line
`- <icon> [<name>](<link>) - <description> <starBadge> <tagList>` terminated by
a newline, with single spaces between the fields also when a field is empty,
and concatenates the lines in input order: the empty list gives the empty
string, a list renders as the lines of its entries joined in order, and the
rendering of `xs ++ ys` is the rendering of `xs` followed by that of `ys`.  The
line of an entry depends on the fetch only through its outcome on that entry's
own link, so a fetch failing on one entry leaves the lines of the others
unchanged. -/
theorem makeProjectMarkdown_lines (fetch : String → Result Int) :
    makeProjectMarkdown fetch [] = ""
    ∧ (∀ p : project, makeProjectMarkdown fetch [p]
        = "- " ++ p.Icon ++ " [" ++ displayName p ++ "](" ++ p.Link ++ ") - " ++ p.Description
            ++ " " ++ starMarkdown fetch p.Link ++ " " ++ tagMarkdown p.Tags ++ "\n")
    ∧ (∀ xs : List project, makeProjectMarkdown fetch xs
        = (xs.map (fun p => makeProjectMarkdown fetch [p])).foldr (fun l r => l ++ r) "")
    ∧ (∀ xs ys : List project, makeProjectMarkdown fetch (xs ++ ys)
        = makeProjectMarkdown fetch xs ++ makeProjectMarkdown fetch ys)
    ∧ (∀ (fetch2 : String → Result Int) (p : project), fetch2 p.Link = fetch p.Link →
        makeProjectMarkdown fetch2 [p] = makeProjectMarkdown fetch [p]) := by
  refine ⟨rfl, ?_, ?_, makeProjectMarkdown_append fetch, ?_⟩
  rotate_left 2
  · intro fetch2 p h
    simp only [makeProjectMarkdown, List.foldl_cons, List.foldl_nil, projectLine,
      starMarkdown, h]
  · intro p
    simp [makeProjectMarkdown, projectLine]
  · intro xs
    induction xs with
    | nil => rfl
    | cons x xs ih =>
      rw [makeProjectMarkdown_cons, List.map_cons, List.foldr_cons, ← ih,
        makeProjectMarkdown_cons]
      simp [makeProjectMarkdown]

theorem makeProjectMarkdown_lines_witness :
    makeProjectMarkdown (fun link => if link = "https://github.com/a/b" then .error "down"
        else .ok 57) [⟨"🔮", "", "https://github.com/wuhan005/Elaina", "runner", ["Docker"]⟩]
      = makeProjectMarkdown (fun _ => .ok 57)
          [⟨"🔮", "", "https://github.com/wuhan005/Elaina", "runner", ["Docker"]⟩] :=
  (makeProjectMarkdown_lines (fun _ => .ok 57)).2.2.2.2 _
    ⟨"🔮", "", "https://github.com/wuhan005/Elaina", "runner", ["Docker"]⟩
    (if_neg (by decide))

/-- C2: for a project whose link starts with "https://github.com/", the star
badge field of the rendered line is decided by the fetch outcome alone: empty
when the fetch fails or returns 0, and `/ [★<count>](<link>/stargazers)` with
the count in decimal when the fetch returns a nonzero count (57 gives
`/ [★57](<link>/stargazers)`). -/
theorem starMarkdown_github (fetch : String → Result Int) (p : project)
    (h : HasPrefix p.Link "https://github.com/" = true) :
    projectLine fetch p
        = "- " ++ p.Icon ++ " [" ++ displayName p ++ "](" ++ p.Link ++ ") - " ++ p.Description
            ++ " " ++ starMarkdown fetch p.Link ++ " " ++ tagMarkdown p.Tags ++ "\n"
    ∧ (∀ err, fetch p.Link = .error err → starMarkdown fetch p.Link = "")
    ∧ (fetch p.Link = .ok 0 → starMarkdown fetch p.Link = "")
    ∧ (∀ count : Int, count ≠ 0 → fetch p.Link = .ok count →
        starMarkdown fetch p.Link
          = "/ [★" ++ toString count ++ "](" ++ p.Link ++ "/stargazers)")
    ∧ (fetch p.Link = .ok 57 →
        starMarkdown fetch p.Link = "/ [★57](" ++ p.Link ++ "/stargazers)") := by
  refine ⟨rfl, ?_, ?_, ?_, ?_⟩
  · intro err he
    simp [starMarkdown, h, he]
  · intro he
    simp [starMarkdown, h, he]
  · intro count hc he
    simp [starMarkdown, h, he, hc, fmtInt]
  · intro he
    simp only [starMarkdown, h, he, fmtInt]
    rfl

theorem starMarkdown_github_witness :
    starMarkdown (fun _ => .ok 57) "https://github.com/wuhan005/Elaina"
      = "/ [★57](" ++ "https://github.com/wuhan005/Elaina" ++ "/stargazers)" :=
  (starMarkdown_github (fun _ => .ok 57)
    ⟨"🔮", "", "https://github.com/wuhan005/Elaina", "Docker-based remote code runner",
      ["Docker"]⟩ (by decide)).2.2.2.2 rfl

/-- C3: for a project whose link does not start with "https://github.com/"
the fetch is never consulted: any two fetch stubs give the same rendered line,
and the star badge field is empty. -/
theorem starMarkdown_other_host (p : project)
    (h : HasPrefix p.Link "https://github.com/" = false) :
    (∀ fetch fetch2 : String → Result Int, projectLine fetch p = projectLine fetch2 p)
    ∧ (∀ fetch : String → Result Int, starMarkdown fetch p.Link = "")
    ∧ (∀ fetch : String → Result Int, projectLine fetch p
        = "- " ++ p.Icon ++ " [" ++ displayName p ++ "](" ++ p.Link ++ ") - " ++ p.Description
            ++ " " ++ "" ++ " " ++ tagMarkdown p.Tags ++ "\n") := by
  have hs : ∀ fetch : String → Result Int, starMarkdown fetch p.Link = "" := by
    intro fetch
    simp [starMarkdown, h]
  refine ⟨?_, hs, ?_⟩
  · intro f g
    simp only [projectLine, hs]
  · intro f
    simp only [projectLine, hs]

theorem starMarkdown_other_host_witness :
    projectLine (fun _ => .ok 57) ⟨"x", "N", "https://gitlab.com/a/b", "d", []⟩
      = projectLine (fun _ => .error "down") ⟨"x", "N", "https://gitlab.com/a/b", "d", []⟩ :=
  (starMarkdown_other_host ⟨"x", "N", "https://gitlab.com/a/b", "d", []⟩ (by decide)).1 _ _

theorem afterLastSlash_spec (l : List Char) :
    '/' ∉ afterLastSlash l
    ∧ (l = afterLastSlash l ∨ ∃ pre, l = pre ++ '/' :: afterLastSlash l) := by
  unfold afterLastSlash
  constructor
  · intro hmem
    have h2 := List.mem_takeWhile_imp (List.mem_reverse.mp hmem)
    simp at h2
  · have hsplit := List.takeWhile_append_dropWhile (fun c => c != '/') l.reverse
    have hl : l = (l.reverse.dropWhile (fun c => c != '/')).reverse
        ++ (l.reverse.takeWhile (fun c => c != '/')).reverse := by
      rw [← List.reverse_append, hsplit, List.reverse_reverse]
    cases hd : l.reverse.dropWhile (fun c => c != '/') with
    | nil =>
      left
      rw [hd] at hl
      simpa using hl
    | cons c r =>
      right
      have hc : c = '/' := by
        have := List.head_dropWhile_not (fun c => c != '/') l.reverse (by simp [hd])
        simp [hd] at this
        exact this
      refine ⟨r.reverse, ?_⟩
      rw [hd] at hl
      rw [hc] at hl
      simpa using hl

theorem base_of_no_trailing_slash (link : String) (hne : link ≠ "")
    (hlast : link.data.getLast? ≠ some '/') :
    Base link = String.mk (afterLastSlash link.data) := by
  have hdata : link.data ≠ [] := by
    intro h
    apply hne
    apply String.ext
    simpa using h
  obtain ⟨c, r, hr⟩ : ∃ c r, link.data.reverse = c :: r := by
    cases h : link.data.reverse with
    | nil => simp at h; exact absurd h hdata
    | cons c r => exact ⟨c, r, rfl⟩
  have hc : c ≠ '/' := by
    intro h
    apply hlast
    rw [List.getLast?_eq_head?_reverse, hr, h]
    rfl
  have hstrip : stripTrailingSlashes link.data = link.data := by
    unfold stripTrailingSlashes
    rw [hr, List.dropWhile_cons_of_neg (by simpa using hc), ← hr, List.reverse_reverse]
  have hnonempty : afterLastSlash link.data ≠ [] := by
    unfold afterLastSlash
    rw [hr, List.takeWhile_cons_of_pos (by simpa using hc)]
    simp
  unfold Base
  rw [if_neg hne]
  simp only [hstrip, if_neg hnonempty]

/-- C4 (as amended): for an entry whose name is empty the display name placed
between the square brackets is `path.Base` of its link; when the link is
non-empty and does not end in a slash this is the text after the last slash of
the link (the whole link when it has no slash).  For an entry whose name is
non-empty the display name is that name unchanged. -/
theorem displayName_base (fetch : String → Result Int) (p : project) :
    projectLine fetch p
        = "- " ++ p.Icon ++ " [" ++ displayName p ++ "](" ++ p.Link ++ ") - " ++ p.Description
            ++ " " ++ starMarkdown fetch p.Link ++ " " ++ tagMarkdown p.Tags ++ "\n"
    ∧ (p.Name = "" → displayName p = Base p.Link)
    ∧ (p.Name = "" → p.Link ≠ "" → p.Link.data.getLast? ≠ some '/' →
        ∃ seg : List Char, displayName p = String.mk seg ∧ seg = afterLastSlash p.Link.data
          ∧ '/' ∉ seg ∧ (p.Link.data = seg ∨ ∃ pre, p.Link.data = pre ++ '/' :: seg))
    ∧ (p.Name ≠ "" → displayName p = p.Name) := by
  refine ⟨rfl, ?_, ?_, ?_⟩
  · intro h
    simp [displayName, h]
  · intro h hne hlast
    refine ⟨afterLastSlash p.Link.data, ?_, rfl, (afterLastSlash_spec _).1,
      (afterLastSlash_spec _).2⟩
    simp only [displayName, h, if_true]
    exact base_of_no_trailing_slash _ hne hlast
  · intro h
    simp [displayName, h]

theorem displayName_base_witness :
    ∃ seg : List Char,
      displayName ⟨"🔮", "", "https://github.com/wuhan005/Elaina", "", []⟩ = String.mk seg
        ∧ seg = afterLastSlash "https://github.com/wuhan005/Elaina".data
        ∧ '/' ∉ seg
        ∧ ("https://github.com/wuhan005/Elaina".data = seg
            ∨ ∃ pre, "https://github.com/wuhan005/Elaina".data = pre ++ '/' :: seg) :=
  (displayName_base (fun _ => .ok 1)
    ⟨"🔮", "", "https://github.com/wuhan005/Elaina", "", []⟩).2.2.1 rfl (by decide) (by decide)

/-- C4 (as stated) fails: for the entry with an empty name and the link
"https://github.com/wuhan005/Elaina/" the display name is "Elaina", while the
text after the last slash of the link is empty. -/
theorem displayName_trailing_slash :
    displayName ⟨"🔮", "", "https://github.com/wuhan005/Elaina/", "", []⟩ = "Elaina"
    ∧ String.mk (afterLastSlash "https://github.com/wuhan005/Elaina/".data) = ""
    ∧ ¬ (∀ p : project, p.Name = "" →
          displayName p = String.mk (afterLastSlash p.Link.data)) := by
  refine ⟨by decide, by decide, ?_⟩
  intro h
  have := h ⟨"🔮", "", "https://github.com/wuhan005/Elaina/", "", []⟩ rfl
  revert this
  decide

theorem foldl_tag_acc (tags : List String) (acc : String) :
    tags.foldl (fun acc tag => acc ++ (" `" ++ tag ++ "`")) acc
      = acc ++ (tags.map (fun tag => " `" ++ tag ++ "`")).foldr (fun l r => l ++ r) "" := by
  induction tags generalizing acc with
  | nil => simp
  | cons t ts ih =>
    simp only [List.foldl_cons, List.map_cons, List.foldr_cons]
    rw [ih, String.append_assoc]

theorem intercalate_go_acc (tags : List String) (acc : String) :
    String.intercalate.go acc " " (tags.map (fun tag => "`" ++ tag ++ "`"))
      = acc ++ (tags.map (fun tag => " `" ++ tag ++ "`")).foldr (fun l r => l ++ r) "" := by
  induction tags generalizing acc with
  | nil => simp [String.intercalate.go]
  | cons t ts ih =>
    simp only [List.map_cons, String.intercalate.go, List.foldr_cons]
    rw [ih]
    apply String.ext
    simp

/-- C5: for an entry with a non-empty tag list the tag field of the rendered
line is one slash followed by the tags in their order, each wrapped in
backticks and separated by single spaces; for an entry without tags the tag
field is empty. -/
theorem tagMarkdown_spec (fetch : String → Result Int) (p : project) :
    projectLine fetch p
        = "- " ++ p.Icon ++ " [" ++ displayName p ++ "](" ++ p.Link ++ ") - " ++ p.Description
            ++ " " ++ starMarkdown fetch p.Link ++ " " ++ tagMarkdown p.Tags ++ "\n"
    ∧ (p.Tags = [] → tagMarkdown p.Tags = "")
    ∧ (p.Tags ≠ [] → tagMarkdown p.Tags
        = "/ " ++ " ".intercalate (p.Tags.map (fun tag => "`" ++ tag ++ "`"))) := by
  refine ⟨rfl, ?_, ?_⟩
  · intro h
    simp [tagMarkdown, h]
  · intro h
    cases hp : p.Tags with
    | nil => exact absurd hp h
    | cons t ts =>
      simp only [tagMarkdown, List.length_cons, List.map_cons, String.intercalate]
      rw [if_pos (by simp), foldl_tag_acc, intercalate_go_acc]
      apply String.ext
      simp

theorem tagMarkdown_spec_witness :
    tagMarkdown ["Docker", "Go"] = "/ `Docker` `Go`" :=
  ((tagMarkdown_spec (fun _ => .ok 1)
    ⟨"🔮", "", "https://github.com/wuhan005/Elaina", "", ["Docker", "Go"]⟩).2.2
      (by decide)).trans (by decide)

/-! ## Theorems: the catalog and the star-count fetch -/

/-- C8 (as amended): the hardcoded catalog of `getRandomTarot` holds exactly
78 identifiers, all pairwise distinct. -/
theorem tarots_length_nodup : tarots.length = 78 ∧ tarots.Nodup := by
  decide

/-- C8 (as stated) fails: the catalog does not hold 80 identifiers, it holds
78. -/
theorem tarots_length_ne_80 : ¬ (tarots.length = 80 ∧ tarots.Nodup) := by
  decide

/-- C9 (as amended): `getRepoStarCount` never inspects the status code.  It
returns an error when the request fails and when the body of the response
fails to decode; for every response whose body decodes, whatever its status,
it returns the decoded count without error; and it returns a count without
error only for a response whose body decodes to that count. -/
theorem getRepoStarCount_ignores_status (httpGet : String → Result Response)
    (decode : String → Result Int) (link : String) :
    (∀ err, httpGet (apiURL link) = .error err →
        ∃ e, getRepoStarCount httpGet decode link = .error e)
    ∧ (∀ resp err, httpGet (apiURL link) = .ok resp → decode resp.Body = .error err →
        ∃ e, getRepoStarCount httpGet decode link = .error e)
    ∧ (∀ resp count, httpGet (apiURL link) = .ok resp → decode resp.Body = .ok count →
        getRepoStarCount httpGet decode link = .ok count)
    ∧ (∀ count, getRepoStarCount httpGet decode link = .ok count →
        ∃ resp, httpGet (apiURL link) = .ok resp ∧ decode resp.Body = .ok count) := by
  refine ⟨?_, ?_, ?_, ?_⟩
  · intro err h
    exact ⟨wrap err "request GitHub API", by simp [getRepoStarCount, apiURL] at h ⊢; simp [h]⟩
  · intro resp err h hd
    exact ⟨wrap err "unmarshal", by simp [getRepoStarCount, apiURL] at h ⊢; simp [h, hd]⟩
  · intro resp count h hd
    simp [getRepoStarCount, apiURL] at h ⊢
    simp [h, hd]
  · intro count h
    simp only [getRepoStarCount, apiURL] at h ⊢
    cases hg : httpGet (ReplaceAll link "https://github.com/" "https://api.github.com/repos/") with
    | error e => simp [hg] at h
    | ok resp =>
      refine ⟨resp, rfl, ?_⟩
      cases hd : decode resp.Body with
      | error e => simp [hg, hd] at h
      | ok n =>
        simp [hg, hd] at h
        rw [h]

theorem getRepoStarCount_ignores_status_witness :
    getRepoStarCount notFoundServer sampleDecode "https://github.com/wuhan005/Elaina" = .ok 0 :=
  (getRepoStarCount_ignores_status notFoundServer sampleDecode
    "https://github.com/wuhan005/Elaina").2.2.1 ⟨404, "\x7b\"message\":\"Not Found\"\x7d"⟩ 0
      rfl rfl

/-- C9 (as stated) fails: a response of status 404 whose body is the JSON
object `{"message":"Not Found"}` is not turned into an error; the function
returns the count 0 without error. -/
theorem getRepoStarCount_not_found_no_error :
    ¬ is2xx 404
    ∧ getRepoStarCount notFoundServer sampleDecode "https://github.com/wuhan005/Elaina" = .ok 0
    ∧ ¬ (∀ (httpGet : String → Result Response) (decode : String → Result Int)
          (link : String) (resp : Response),
          httpGet (apiURL link) = .ok resp → ¬ is2xx resp.StatusCode →
            ∃ e, getRepoStarCount httpGet decode link = .error e) := by
  have hok : getRepoStarCount notFoundServer sampleDecode
      "https://github.com/wuhan005/Elaina" = .ok 0 := rfl
  refine ⟨by unfold is2xx; omega, hok, ?_⟩
  intro h
  obtain ⟨e, he⟩ := h notFoundServer sampleDecode "https://github.com/wuhan005/Elaina"
    ⟨404, "\x7b\"message\":\"Not Found\"\x7d"⟩ rfl (by simp only [is2xx]; omega)
  rw [hok] at he
  cases he


/-! ## Theorems: the shuffle -/

theorem swap_snoc (f : List String) (x : String) (rest : List String) (p : Nat)
    (hp : p ≤ f.length) :
    swap (f ++ x :: rest) f.length p = some (f.set p x ++ f.getD p x :: rest) := by
  rcases Nat.lt_or_eq_of_le hp with hlt | heq
  · have h1 : (f ++ x :: rest)[p]? = some f[p] := by
      rw [List.getElem?_append_left hlt, List.getElem?_eq_getElem hlt]
    have h2 : (f ++ x :: rest)[f.length]? = some x := by
      rw [List.getElem?_append_right (le_refl _)]
      simp
    simp only [swap, h1, h2]
    congr 1
    rw [List.set_append_right _ _ (le_refl _), Nat.sub_self, List.set_cons_zero,
      List.set_append_left _ _ hlt, List.getD_eq_getElem _ _ hlt]
  · subst heq
    have h2 : (f ++ x :: rest)[f.length]? = some x := by
      rw [List.getElem?_append_right (le_refl _)]
      simp
    simp only [swap, h2]
    congr 1
    rw [List.set_append_right _ _ (le_refl _), Nat.sub_self, List.set_cons_zero,
      List.set_append_right _ _ (le_refl _), Nat.sub_self, List.set_cons_zero,
      List.set_eq_of_length_le (le_refl _), List.getD_eq_default _ _ (le_refl _)]

theorem shuffleLoop_snoc (f : List String) (x : String) (rest : List String) (p : Nat)
    (ps : List Nat) :
    shuffleLoop (f.length + 1) (p :: ps) (f ++ x :: rest)
      = if p < f.length + 1 then shuffleLoop f.length ps (f.set p x ++ f.getD p x :: rest)
        else none := by
  by_cases hp : p < f.length + 1
  · simp only [shuffleLoop, hp, if_true]
    rw [swap_snoc f x rest p (by omega)]
    rfl
  · simp [shuffleLoop, hp]

theorem shuffleLoop_append (n : Nat) :
    ∀ (ps : List Nat) (f tail : List String), f.length = n →
      shuffleLoop n ps (f ++ tail) = (shuffleLoop n ps f).map (fun out => out ++ tail) := by
  induction n with
  | zero =>
    intro ps f tail hf
    simp [shuffleLoop]
  | succ n ih =>
    intro ps f tail hf
    rcases List.eq_nil_or_concat f with hnil | ⟨g, x, hg⟩
    · subst hnil
      simp at hf
    · subst hg
      rw [List.concat_eq_append] at hf ⊢
      have hgl : g.length = n := by simpa using hf
      cases ps with
      | nil => simp [shuffleLoop]
      | cons p ps =>
        have e1 := shuffleLoop_snoc g x tail p ps
        have e2 := shuffleLoop_snoc g x [] p ps
        rw [hgl] at e1 e2
        rw [List.append_assoc, List.singleton_append, e1, e2]
        by_cases hp : p < n + 1
        · simp only [hp, if_true]
          rw [ih ps (g.set p x) (g.getD p x :: tail) (by simpa using hgl),
            ih ps (g.set p x) [g.getD p x] (by simpa using hgl)]
          cases shuffleLoop n ps (g.set p x) <;> simp
        · simp [hp]

/-- Unfolding of `shuffle` on a slice with a last element. -/
theorem shuffle_snoc (f : List String) (x : String) (p : Nat) (ps : List Nat) :
    shuffle (p :: ps) (f ++ [x])
      = if p < f.length + 1 then
          (shuffle ps (f.set p x)).map (fun out => out ++ [f.getD p x])
        else none := by
  unfold shuffle
  have e := shuffleLoop_snoc f x [] p ps
  rw [List.length_append, List.length_singleton, e]
  by_cases hp : p < f.length + 1
  · simp only [hp, if_true]
    rw [shuffleLoop_append f.length ps (f.set p x) [f.getD p x] (by simp)]
    simp
  · simp [hp]

theorem set_snoc_perm (f : List String) (x : String) (p : Nat) :
    (f.set p x ++ [f.getD p x]).Perm (f ++ [x]) := by
  by_cases hp : p < f.length
  · have hf : f = f.take p ++ f[p] :: f.drop (p + 1) := by
      simp
    have hset : f.set p x = f.take p ++ x :: f.drop (p + 1) := by
      rw [List.set_eq_take_append_cons_drop]
      simp [hp]
    rw [hset, List.getD_eq_getElem _ _ hp]
    conv => rhs; rw [hf]
    rw [List.perm_iff_count]
    intro a
    simp only [List.count_append, List.count_cons, List.count_nil]
    omega
  · rw [List.set_eq_of_length_le (by omega), List.getD_eq_default _ _ (by omega)]

theorem getElem?_snoc_getD (f : List String) (x : String) (p : Nat) (hp : p ≤ f.length) :
    (f ++ [x])[p]? = some (f.getD p x) := by
  rcases Nat.lt_or_eq_of_le hp with hlt | heq
  · rw [List.getElem?_append_left hlt, List.getElem?_eq_getElem hlt, List.getD_eq_getElem _ _ hlt]
  · subst heq
    rw [List.getElem?_append_right (le_refl _), List.getD_eq_default _ _ (le_refl _)]
    simp

theorem validPicks_cons (n p : Nat) (ps : List Nat) :
    validPicks (n + 1) (p :: ps) = true ↔ p < n + 1 ∧ validPicks n ps = true := by
  simp [validPicks]

theorem validPicks_succ (n : Nat) (ps : List Nat) (h : validPicks (n + 1) ps = true) :
    ∃ p rest, ps = p :: rest ∧ p < n + 1 ∧ validPicks n rest = true := by
  cases ps with
  | nil => simp [validPicks] at h
  | cons p rest => exact ⟨p, rest, rfl, (validPicks_cons n p rest).mp h⟩

theorem validPicks_zero (ps : List Nat) (h : validPicks 0 ps = true) : ps = [] := by
  cases ps with
  | nil => rfl
  | cons p rest => simp [validPicks] at h

theorem snoc_of_length_succ (l : List String) (n : Nat) (h : l.length = n + 1) :
    ∃ f x, l = f ++ [x] ∧ f.length = n := by
  rcases List.eq_nil_or_concat l with hnil | ⟨f, x, hf⟩
  · subst hnil
    simp at h
  · rw [List.concat_eq_append] at hf
    subst hf
    exact ⟨f, x, rfl, by simpa using h⟩

/-- Every valid index sequence makes `shuffle` return, and what it returns is
a permutation of the input. -/
theorem shuffle_perm_aux (n : Nat) :
    ∀ (l : List String) (ps : List Nat), l.length = n → validPicks n ps = true →
      ∃ out, shuffle ps l = some out ∧ out.Perm l := by
  induction n with
  | zero =>
    intro l ps hl hv
    have hl0 : l = [] := List.length_eq_zero.mp hl
    subst hl0
    exact ⟨[], by simp [shuffle, shuffleLoop], List.Perm.refl _⟩
  | succ n ih =>
    intro l ps hl hv
    obtain ⟨f, x, rfl, hf⟩ := snoc_of_length_succ l n hl
    obtain ⟨p, rest, rfl, hp, hrest⟩ := validPicks_succ n ps hv
    obtain ⟨out, hout, hperm⟩ := ih (f.set p x) rest (by simpa using hf) hrest
    refine ⟨out ++ [f.getD p x], ?_, ?_⟩
    · rw [shuffle_snoc, hf, if_pos hp, hout]
      rfl
    · exact ((List.perm_append_right_iff _).mpr hperm).trans (set_snoc_perm f x p)

/-- Every ordering of a slice without repetition is reached by a valid index
sequence. -/
theorem shuffle_surj_aux (n : Nat) :
    ∀ (l : List String), l.length = n → l.Nodup → ∀ out : List String, out.Perm l →
      ∃ ps, validPicks n ps = true ∧ shuffle ps l = some out := by
  induction n with
  | zero =>
    intro l hl _ out hperm
    have hl0 : l = [] := List.length_eq_zero.mp hl
    subst hl0
    have : out = [] := List.Perm.eq_nil hperm
    subst this
    exact ⟨[], rfl, by simp [shuffle, shuffleLoop]⟩
  | succ n ih =>
    intro l hl hnd out hperm
    obtain ⟨f, x, rfl, hf⟩ := snoc_of_length_succ l n hl
    obtain ⟨g, y, rfl, hg⟩ := snoc_of_length_succ out n (by rw [hperm.length_eq, hl])
    have hy : y ∈ f ++ [x] := hperm.subset (by simp)
    obtain ⟨p, hp⟩ := List.mem_iff_getElem?.mp hy
    have hplt : p < n + 1 := by
      have := (List.getElem?_eq_some_iff.mp hp).1
      simpa [hf] using this
    have hget : f.getD p x = y := by
      have h2 := getElem?_snoc_getD f x p (by omega)
      rw [hp] at h2
      exact (Option.some.inj h2).symm
    have hperm2 : (f.set p x ++ [y]).Perm (f ++ [x]) := by
      rw [← hget]
      exact set_snoc_perm f x p
    have hgperm : g.Perm (f.set p x) :=
      (List.perm_append_right_iff [y]).mp (hperm.trans hperm2.symm)
    have hnd2 : (f.set p x).Nodup :=
      List.Nodup.of_append_left ((hperm2.nodup_iff).mpr hnd)
    obtain ⟨ps, hv, hs⟩ := ih (f.set p x) (by simpa using hf) hnd2 g hgperm
    refine ⟨p :: ps, (validPicks_cons n p ps).mpr ⟨hplt, hv⟩, ?_⟩
    rw [shuffle_snoc, hf, if_pos hplt, hs, hget]
    rfl

/-- On a slice without repetition two valid index sequences with the same
result are equal. -/
theorem shuffle_inj_aux (n : Nat) :
    ∀ (l : List String), l.length = n → l.Nodup → ∀ ps qs : List Nat,
      validPicks n ps = true → validPicks n qs = true → shuffle ps l = shuffle qs l →
      ps = qs := by
  induction n with
  | zero =>
    intro l _ _ ps qs hps hqs _
    rw [validPicks_zero ps hps, validPicks_zero qs hqs]
  | succ n ih =>
    intro l hl hnd ps qs hps hqs heq
    obtain ⟨f, x, rfl, hf⟩ := snoc_of_length_succ l n hl
    obtain ⟨p, ps, rfl, hp, hps2⟩ := validPicks_succ n ps hps
    obtain ⟨q, qs, rfl, hq, hqs2⟩ := validPicks_succ n qs hqs
    obtain ⟨o1, ho1, hperm1⟩ := shuffle_perm_aux n (f.set p x) ps (by simpa using hf) hps2
    obtain ⟨o2, ho2, hperm2⟩ := shuffle_perm_aux n (f.set q x) qs (by simpa using hf) hqs2
    rw [shuffle_snoc, shuffle_snoc, hf, if_pos hp, if_pos hq, ho1, ho2] at heq
    have heq2 : o1 ++ [f.getD p x] = o2 ++ [f.getD q x] := Option.some.inj heq
    obtain ⟨ho, hlast⟩ := List.append_inj' heq2 rfl
    have hpq : p = q := by
      have h1 := getElem?_snoc_getD f x p (by omega)
      have h2 := getElem?_snoc_getD f x q (by omega)
      have hlast2 : f.getD p x = f.getD q x := by simpa using hlast
      rw [hlast2, ← h2] at h1
      exact (List.getElem?_inj (by simp; omega) hnd h1)
    subst hpq
    have hnd2 : (f.set p x).Nodup :=
      List.Nodup.of_append_left (((set_snoc_perm f x p).nodup_iff).mpr hnd)
    have := ih (f.set p x) (by simpa using hf) hnd2 ps qs hps2 hqs2 (by rw [ho1, ho2, ho])
    rw [this]

theorem shuffle_some_perm_aux (n : Nat) :
    ∀ (l : List String) (ps : List Nat) (out : List String), l.length = n →
      shuffle ps l = some out → out.Perm l := by
  induction n with
  | zero =>
    intro l ps out hl h
    have hl0 : l = [] := List.length_eq_zero.mp hl
    subst hl0
    simp [shuffle, shuffleLoop] at h
    rw [← h]
  | succ n ih =>
    intro l ps out hl h
    obtain ⟨f, x, rfl, hf⟩ := snoc_of_length_succ l n hl
    cases ps with
    | nil => simp [shuffle, shuffleLoop] at h
    | cons p rest =>
      rw [shuffle_snoc] at h
      by_cases hp : p < f.length + 1
      · rw [if_pos hp] at h
        cases hrec : shuffle rest (f.set p x) with
        | none => simp [hrec] at h
        | some o =>
          rw [hrec] at h
          have ho : o ++ [f.getD p x] = out := by simpa using h
          rw [← ho]
          have hperm := ih (f.set p x) rest o (by simpa using hf) hrec
          exact ((List.perm_append_right_iff _).mpr hperm).trans (set_snoc_perm f x p)
      · simp [hp] at h

/-- C10: for every valid index sequence (the k-th pick drawn from the
remaining range) `shuffle` returns a permutation of its input, of the same
length; and on a slice of distinct elements each ordering of the input is the
result of exactly one valid index sequence, so the map from valid index
sequences to orderings is a bijection onto the permutations of the slice. -/
theorem shuffle_unbiased (l : List String) :
    (∀ picks : List Nat, validPicks l.length picks = true →
        ∃ out, shuffle picks l = some out ∧ out.length = l.length ∧ out.Perm l)
    ∧ (l.Nodup → ∀ out : List String, out.Perm l →
        ∃! picks : List Nat, validPicks l.length picks = true ∧ shuffle picks l = some out) := by
  constructor
  · intro picks hv
    obtain ⟨out, ho, hperm⟩ := shuffle_perm_aux l.length l picks rfl hv
    exact ⟨out, ho, hperm.length_eq, hperm⟩
  · intro hnd out hperm
    obtain ⟨ps, hv, hs⟩ := shuffle_surj_aux l.length l rfl hnd out hperm
    refine ⟨ps, ⟨hv, hs⟩, ?_⟩
    rintro qs ⟨hqv, hqs⟩
    exact shuffle_inj_aux l.length l rfl hnd qs ps hqv hv (by rw [hqs, hs])

theorem shuffle_unbiased_witness :
    ∃ out, shuffle [1, 0, 0] ["a", "b", "c"] = some out
      ∧ out.length = ["a", "b", "c"].length ∧ out.Perm ["a", "b", "c"] :=
  (shuffle_unbiased ["a", "b", "c"]).1 [1, 0, 0] (by decide)

/-! ## Theorems: the decoration picker -/

theorem tarotLoop_three (coins : Nat → Nat) (a b c : String) :
    ∃ t1 t2 t3 : String, tarotLoop coins 0 [a, b, c] "" = t1 ++ t2 ++ t3
      ∧ (t1 = plainTag a ∨ t1 = rotatedTag a)
      ∧ (t2 = plainTag b ∨ t2 = rotatedTag b)
      ∧ (t3 = plainTag c ∨ t3 = rotatedTag c) := by
  have hstep : ∀ (k : Nat) (t : String) (rest : List String) (acc : String),
      ∃ tag, (tag = plainTag t ∨ tag = rotatedTag t)
        ∧ tarotLoop coins k (t :: rest) acc = tarotLoop coins (k + 1) rest (acc ++ tag) := by
    intro k t rest acc
    by_cases h : (coins k % 2 != 0) = true
    · exact ⟨plainTag t, Or.inl rfl, by rw [tarotLoop, if_pos h]⟩
    · exact ⟨rotatedTag t, Or.inr rfl, by rw [tarotLoop, if_neg h]⟩
  obtain ⟨t1, h1, e1⟩ := hstep 0 a [b, c] ""
  obtain ⟨t2, h2, e2⟩ := hstep 1 b [c] ("" ++ t1)
  obtain ⟨t3, h3, e3⟩ := hstep 2 c [] ("" ++ t1 ++ t2)
  refine ⟨t1, t2, t3, ?_, h1, h2, h3⟩
  rw [e1, e2, e3, tarotLoop]
  simp

/-- Shape of every string returned by `getRandomTarot`. -/
theorem getRandomTarot_shape (picks : List Nat) (coins : Nat → Nat) (tarotsMarkdown : String)
    (h : getRandomTarot picks coins = some tarotsMarkdown) :
    ∃ a b c t1 t2 t3 : String, tarotsMarkdown = t1 ++ t2 ++ t3
      ∧ a ∈ tarots ∧ b ∈ tarots ∧ c ∈ tarots ∧ a ≠ b ∧ a ≠ c ∧ b ≠ c
      ∧ (t1 = plainTag a ∨ t1 = rotatedTag a)
      ∧ (t2 = plainTag b ∨ t2 = rotatedTag b)
      ∧ (t3 = plainTag c ∨ t3 = rotatedTag c) := by
  unfold getRandomTarot at h
  cases hs : shuffle picks tarots with
  | none => simp [hs] at h
  | some shuffled =>
    rw [hs] at h
    have hperm := shuffle_some_perm_aux tarots.length tarots picks shuffled rfl hs
    have hlen : shuffled.length = 78 := hperm.length_eq
    have hnd : shuffled.Nodup := (hperm.nodup_iff).mpr (by decide)
    match shuffled, hlen, hnd, hperm, h with
    | a :: b :: c :: rest, _, hnd, hperm, h =>
      obtain ⟨t1, t2, t3, ht, h1, h2, h3⟩ := tarotLoop_three coins a b c
      have hout : tarotsMarkdown = t1 ++ t2 ++ t3 := by
        rw [← ht]
        simpa using h.symm
      simp only [List.nodup_cons, List.mem_cons, not_or] at hnd
      exact ⟨a, b, c, t1, t2, t3, hout, hperm.subset (by simp), hperm.subset (by simp),
        hperm.subset (by simp), hnd.1.1, hnd.1.2.1, hnd.2.1.1, h1, h2, h3⟩

/-- C6: for every valid sequence of shuffle indices and every sequence of coin
flips `getRandomTarot` returns the concatenation, without separator, of exactly
3 image tags; each tag is the plain form or the form carrying the
`rotate(180deg)` style attribute for one identifier of the catalog, and the 3
identifiers are pairwise distinct. -/
theorem getRandomTarot_three (picks : List Nat) (coins : Nat → Nat)
    (h : validPicks tarots.length picks = true) :
    ∃ a b c t1 t2 t3 : String, getRandomTarot picks coins = some (t1 ++ t2 ++ t3)
      ∧ a ∈ tarots ∧ b ∈ tarots ∧ c ∈ tarots ∧ a ≠ b ∧ a ≠ c ∧ b ≠ c
      ∧ (t1 = plainTag a ∨ t1 = rotatedTag a)
      ∧ (t2 = plainTag b ∨ t2 = rotatedTag b)
      ∧ (t3 = plainTag c ∨ t3 = rotatedTag c) := by
  obtain ⟨out, hout, _⟩ := shuffle_perm_aux tarots.length tarots picks rfl h
  have hsome : getRandomTarot picks coins
      = some (tarotLoop coins 0 (out.take 3) "") := by
    simp [getRandomTarot, hout]
  obtain ⟨a, b, c, t1, t2, t3, ht, rest⟩ := getRandomTarot_shape picks coins _ hsome
  exact ⟨a, b, c, t1, t2, t3, by rw [hsome, ht], rest⟩

theorem getRandomTarot_three_witness :
    ∃ a b c t1 t2 t3 : String,
      getRandomTarot (List.replicate 78 0) (fun k => k) = some (t1 ++ t2 ++ t3)
      ∧ a ∈ tarots ∧ b ∈ tarots ∧ c ∈ tarots ∧ a ≠ b ∧ a ≠ c ∧ b ≠ c
      ∧ (t1 = plainTag a ∨ t1 = rotatedTag a)
      ∧ (t2 = plainTag b ∨ t2 = rotatedTag b)
      ∧ (t3 = plainTag c ∨ t3 = rotatedTag c) :=
  getRandomTarot_three (List.replicate 78 0) (fun k => k) (by decide)


/-! ## Theorems: template substitution -/

theorem isPrefixOf_eq_true_iff (pat s : List Char) :
    pat.isPrefixOf s = true ↔ pat <+: s := by
  simp

theorem occurrences_cons (pat : List Char) (c : Char) (cs : List Char) :
    occurrences pat (c :: cs)
      = (if pat <+: c :: cs then 1 else 0) + occurrences pat cs := by
  simp [occurrences]

theorem occurrences_eq_zero_iff (pat : List Char) (hpat : pat ≠ []) (s : List Char) :
    occurrences pat s = 0 ↔ ¬ pat <:+: s := by
  induction s with
  | nil => simp [occurrences, hpat]
  | cons c cs ih =>
    rw [occurrences_cons, List.infix_cons_iff]
    by_cases h : pat <+: c :: cs
    · simp [h]
    · simp [h, ih]

theorem occurrences_append_ge (pat : List Char) (x y : List Char) :
    occurrences pat x + occurrences pat y ≤ occurrences pat (x ++ y) := by
  induction x with
  | nil => simp [occurrences]
  | cons c cs ih =>
    rw [List.cons_append, occurrences_cons, occurrences_cons]
    by_cases h : pat <+: c :: cs
    · have h2 : pat <+: c :: (cs ++ y) := h.trans (List.prefix_append (c :: cs) y)
      simp only [h, h2, if_true]
      omega
    · simp only [h, if_false]
      split <;> omega

theorem occurrences_self_append (pat : List Char) (hpat : pat ≠ []) (b : List Char) :
    1 ≤ occurrences pat (pat ++ b) := by
  cases pat with
  | nil => exact absurd rfl hpat
  | cons o os =>
    rw [List.cons_append, occurrences_cons]
    have : (o :: os) <+: o :: (os ++ b) := List.prefix_append (o :: os) b
    simp [this]

theorem replaceAux_skip (old new : List Char) (x b : List Char) :
    replaceAux old new x.length (x ++ b) = replaceAux old new 0 b := by
  induction x with
  | nil => rfl
  | cons c cs ih => simpa [replaceAux] using ih

theorem replaceAux_none (old new : List Char) (s : List Char)
    (h : occurrences old s = 0) : replaceAux old new 0 s = s := by
  induction s with
  | nil => rfl
  | cons c cs ih =>
    rw [occurrences_cons] at h
    have hno : ¬ old <+: c :: cs := by
      intro hp
      simp [hp] at h
    have hcs : occurrences old cs = 0 := by omega
    have hb : old.isPrefixOf (c :: cs) = false := by
      rw [Bool.eq_false_iff, ne_eq, isPrefixOf_eq_true_iff]
      exact hno
    rw [replaceAux, hb]
    simp [ih hcs]

theorem replaceAux_one (old new : List Char) (hold : old ≠ []) (a b : List Char)
    (h : occurrences old (a ++ (old ++ b)) = 1) :
    replaceAux old new 0 (a ++ (old ++ b)) = a ++ (new ++ b) := by
  induction a with
  | nil =>
    have hge := occurrences_append_ge old old b
    have hself := occurrences_self_append old hold []
    rw [List.append_nil] at hself
    rw [List.nil_append] at h
    have hb : occurrences old b = 0 := by omega
    cases hold2 : old with
    | nil => exact absurd hold2 hold
    | cons o os =>
      have hp : (o :: os).isPrefixOf (o :: (os ++ b)) = true := by
        rw [isPrefixOf_eq_true_iff]
        exact List.prefix_append (o :: os) b
      rw [List.nil_append, List.cons_append, replaceAux, hp]
      simp only [if_true, List.length_cons, Nat.add_sub_cancel, List.nil_append]
      rw [replaceAux_skip, ← hold2, replaceAux_none old new b hb]
  | cons c cs ih =>
    rw [List.cons_append, occurrences_cons] at h
    have hge := occurrences_append_ge old cs (old ++ b)
    have hself := occurrences_self_append old hold b
    have hno : ¬ old <+: c :: (cs ++ (old ++ b)) := by
      intro hp
      rw [if_pos hp] at h
      omega
    have hrest : occurrences old (cs ++ (old ++ b)) = 1 := by
      rw [if_neg hno] at h
      omega
    have hb : old.isPrefixOf (c :: (cs ++ (old ++ b))) = false := by
      rw [Bool.eq_false_iff, ne_eq, isPrefixOf_eq_true_iff]
      exact hno
    rw [List.cons_append, replaceAux, hb]
    simp [ih hrest]

theorem prefix_append_of_separated (pat w : List Char) (hsep : Separated pat w)
    (x y : List Char) : pat <+: x ++ (w ++ y) ↔ pat <+: x := by
  constructor
  · rintro ⟨t, ht⟩
    rcases List.append_eq_append_iff.mp ht with ⟨a, hx, _⟩ | ⟨c, hpat, hwy⟩
    · exact ⟨a, hx.symm⟩
    · rcases List.append_eq_append_iff.mp hwy with ⟨a2, hc, _⟩ | ⟨c2, hw, _⟩
      · exfalso
        apply hsep.2.1
        exact ⟨x, a2, by rw [hpat, hc, List.append_assoc]⟩
      · by_cases hc0 : c = []
        · subst hc0
          exact ⟨[], by simpa using hpat⟩
        · exfalso
          apply hsep.2.2.1 c ((List.mem_inits _ _).mpr ⟨c2, hw.symm⟩) hc0
          exact ⟨x, hpat.symm⟩
  · intro h
    exact h.trans (List.prefix_append x (w ++ y))

theorem occurrences_tail_of_separated (pat w : List Char) (hsep : Separated pat w)
    (y : List Char) : ∀ v : List Char, v <:+ w →
      occurrences pat (v ++ y) = occurrences pat y := by
  intro v
  induction v with
  | nil => intro _; rfl
  | cons c cs ih =>
    intro hv
    have hcs : cs <:+ w := (List.suffix_cons c cs).trans hv
    rw [List.cons_append, occurrences_cons, ih hcs]
    have hno : ¬ pat <+: c :: (cs ++ y) := by
      rintro ⟨t, ht⟩
      rw [← List.cons_append] at ht
      rcases List.append_eq_append_iff.mp ht with ⟨a, hx, _⟩ | ⟨c2, hpat, _⟩
      · apply hsep.1
        exact (List.IsPrefix.isInfix ⟨a, hx.symm⟩).trans hv.isInfix
      · apply hsep.2.2.2 (c :: cs) ((List.mem_tails _ _).mpr hv) (by simp)
        exact ⟨c2, hpat.symm⟩
    simp [hno]

/-- Occurrences of a pattern around a word it cannot straddle: they are those
before the word and those after it. -/
theorem occurrences_around (pat w : List Char) (hsep : Separated pat w) (x y : List Char) :
    occurrences pat (x ++ (w ++ y)) = occurrences pat x + occurrences pat y := by
  induction x with
  | nil =>
    simpa [occurrences] using
      occurrences_tail_of_separated pat w hsep y w (List.suffix_refl w)
  | cons c cs ih =>
    rw [List.cons_append, occurrences_cons, occurrences_cons, ih]
    have := prefix_append_of_separated pat w hsep (c :: cs) y
    rw [List.cons_append] at this
    by_cases h : pat <+: c :: cs
    · simp only [this.mpr h, h, if_true]
      omega
    · have h2 : ¬ pat <+: c :: (cs ++ (w ++ y)) := fun hh => h (this.mp hh)
      simp only [h2, h, if_false]
      omega

theorem separated_of_boundary (pat w : List Char) (first last : Char)
    (hfirst : w.head? = some first) (hlast : w.getLast? = some last)
    (hf : first ∉ pat) (hl : last ∉ pat) (hin : ¬ pat <:+: w) : Separated pat w := by
  obtain ⟨mid1, h1⟩ := List.head?_eq_some_iff.mp hfirst
  obtain ⟨mid2, h2⟩ := List.getLast?_eq_some_iff.mp hlast
  refine ⟨hin, ?_, ?_, ?_⟩
  · intro h
    exact hf (h.subset (by rw [h1]; simp))
  · intro v hv hne hsuf
    have hpre : v <+: first :: mid1 := h1 ▸ (List.mem_inits _ _).mp hv
    cases v with
    | nil => exact hne rfl
    | cons c cs =>
      have hc : c = first := (List.cons_prefix_cons.mp hpre).1
      exact hf (hsuf.subset (by rw [hc]; simp))
  · intro v hv hne hpre
    have hsuf : v <:+ mid2 ++ [last] := h2 ▸ (List.mem_tails _ _).mp hv
    have hrev : v.reverse <+: last :: mid2.reverse := by
      have := List.reverse_prefix.mpr hsuf
      simpa using this
    cases hvr : v.reverse with
    | nil =>
      apply hne
      simpa using hvr
    | cons c cs =>
      rw [hvr] at hrev
      have hc : c = last := (List.cons_prefix_cons.mp hrev).1
      have hmem : last ∈ v := by
        rw [← List.mem_reverse, hvr, hc]
        simp
      exact hl (hpre.subset hmem)

theorem occurrences_pieces (pat a q b : List Char) :
    occurrences pat a + occurrences pat q + occurrences pat b
      ≤ occurrences pat (a ++ (q ++ b)) := by
  have h1 := occurrences_append_ge pat a (q ++ b)
  have h2 := occurrences_append_ge pat q b
  omega

theorem exists_split_of_occurrences (pat : List Char) (hpat : pat ≠ []) (s : List Char)
    (h : occurrences pat s ≠ 0) : ∃ a b, s = a ++ (pat ++ b) := by
  have hin : pat <:+: s := by
    by_contra hno
    exact h ((occurrences_eq_zero_iff pat hpat s).mpr hno)
  obtain ⟨a, b, hab⟩ := hin
  exact ⟨a, b, by rw [← hab, List.append_assoc]⟩

/-- The two substitutions on a template that holds each placeholder once,
for sections that the placeholders cannot straddle. -/
theorem substitute_core (P Q T M D : List Char) (hPne : P ≠ []) (hQne : Q ≠ [])
    (hQP : Separated Q P) (hQM : Separated Q M) (hPM : Separated P M)
    (hQD : Separated Q D) (hPD : Separated P D)
    (hP : occurrences P T = 1) (hQ : occurrences Q T = 1) :
    occurrences P (replaceAux Q D 0 (replaceAux P M 0 T)) = 0
    ∧ occurrences Q (replaceAux Q D 0 (replaceAux P M 0 T)) = 0
    ∧ ∃ x z, replaceAux Q D 0 (replaceAux P M 0 T) = x ++ (M ++ z) := by
  obtain ⟨A, B, rfl⟩ := exists_split_of_occurrences P hPne T (by omega)
  rw [replaceAux_one P M hPne A B hP]
  have hPpieces := occurrences_pieces P A P B
  have hPself := occurrences_self_append P hPne []
  rw [List.append_nil] at hPself
  have hPA : occurrences P A = 0 := by omega
  have hPB : occurrences P B = 0 := by omega
  have hQAB : occurrences Q A + occurrences Q B = 1 := by
    rw [← occurrences_around Q P hQP A B]
    exact hQ
  have hQdoc : occurrences Q (A ++ (M ++ B)) = 1 := by
    rw [occurrences_around Q M hQM A B]
    exact hQAB
  have hQself := occurrences_self_append Q hQne []
  rw [List.append_nil] at hQself
  by_cases hcase : occurrences Q A = 0
  · -- the decoration placeholder lies after the project placeholder
    obtain ⟨B1, B2, rfl⟩ := exists_split_of_occurrences Q hQne B (by omega)
    have hQp := occurrences_pieces Q B1 Q B2
    have hPp := occurrences_pieces P B1 Q B2
    have hshape : A ++ (M ++ (B1 ++ (Q ++ B2))) = (A ++ (M ++ B1)) ++ (Q ++ B2) := by
      simp
    rw [hshape] at hQdoc ⊢
    rw [replaceAux_one Q D hQne (A ++ (M ++ B1)) B2 hQdoc]
    refine ⟨?_, ?_, ⟨A, B1 ++ (D ++ B2), by simp⟩⟩
    · rw [occurrences_around P D hPD, occurrences_around P M hPM]
      omega
    · rw [occurrences_around Q D hQD, occurrences_around Q M hQM]
      omega
  · -- the decoration placeholder lies before the project placeholder
    obtain ⟨A1, A2, rfl⟩ := exists_split_of_occurrences Q hQne A hcase
    have hQp := occurrences_pieces Q A1 Q A2
    have hPp := occurrences_pieces P A1 Q A2
    have hshape : (A1 ++ (Q ++ A2)) ++ (M ++ B) = A1 ++ (Q ++ (A2 ++ (M ++ B))) := by
      simp
    rw [hshape] at hQdoc ⊢
    rw [replaceAux_one Q D hQne A1 (A2 ++ (M ++ B)) hQdoc]
    refine ⟨?_, ?_, ⟨A1 ++ (D ++ A2), B, by simp⟩⟩
    · rw [occurrences_around P D hPD, occurrences_around P M hPM]
      omega
    · rw [occurrences_around Q D hQD, occurrences_around Q M hQM]
      omega

theorem projectLine_head (fetch : String → Result Int) (p : project) :
    (projectLine fetch p).data.head? = some '-' := by
  simp only [projectLine, String.data_append, List.append_assoc]
  rfl

theorem projectLine_last (fetch : String → Result Int) (p : project) :
    (projectLine fetch p).data.getLast? = some '\n' := by
  simp only [projectLine, String.data_append]
  exact List.getLast?_concat _

theorem makeProjectMarkdown_pair (fetch : String → Result Int) (p1 p2 : project) :
    (makeProjectMarkdown fetch [p1, p2]).data
      = (projectLine fetch p1).data ++ (projectLine fetch p2).data := by
  rw [makeProjectMarkdown_cons, makeProjectMarkdown_cons]
  simp [makeProjectMarkdown]

/-- Facts about the two image tags of a catalog identifier: each starts with
`<`, ends with `>` and holds no opening brace. -/
theorem tag_facts : ∀ a ∈ tarots,
    ((plainTag a).data.head? = some '<' ∧ (plainTag a).data.getLast? = some '>'
      ∧ '\x7b' ∉ (plainTag a).data)
    ∧ ((rotatedTag a).data.head? = some '<' ∧ (rotatedTag a).data.getLast? = some '>'
      ∧ '\x7b' ∉ (rotatedTag a).data) := by
  decide

theorem tarotsMarkdown_facts (picks : List Nat) (coins : Nat → Nat) (tarotsMarkdown : String)
    (h : getRandomTarot picks coins = some tarotsMarkdown) :
    tarotsMarkdown.data.head? = some '<' ∧ tarotsMarkdown.data.getLast? = some '>'
      ∧ '\x7b' ∉ tarotsMarkdown.data := by
  obtain ⟨a, b, c, t1, t2, t3, rfl, ha, hb, hc, _, _, _, h1, h2, h3⟩ :=
    getRandomTarot_shape picks coins tarotsMarkdown h
  have f1 : t1.data.head? = some '<' ∧ t1.data.getLast? = some '>' ∧ '\x7b' ∉ t1.data := by
    rcases h1 with rfl | rfl
    · exact (tag_facts a ha).1
    · exact (tag_facts a ha).2
  have f2 : t2.data.head? = some '<' ∧ t2.data.getLast? = some '>' ∧ '\x7b' ∉ t2.data := by
    rcases h2 with rfl | rfl
    · exact (tag_facts b hb).1
    · exact (tag_facts b hb).2
  have f3 : t3.data.head? = some '<' ∧ t3.data.getLast? = some '>' ∧ '\x7b' ∉ t3.data := by
    rcases h3 with rfl | rfl
    · exact (tag_facts c hc).1
    · exact (tag_facts c hc).2
  refine ⟨?_, ?_, ?_⟩
  · simp [String.data_append, f1.1]
  · simp [String.data_append, f3.2.1]
  · simp [String.data_append, f1.2.2, f2.2.2, f3.2.2]

theorem separated_tokens : Separated tarotsToken.data projectsToken.data := by
  unfold Separated
  decide

/-- C7 (as amended): for every 2-project list whose rendered project section
contains neither placeholder token, every fetch stub, every decoration string
produced by `getRandomTarot` and every template that contains each of the two
placeholders exactly once, the document obtained by the two substitutions of
`main` contains neither placeholder token and contains both rendered project
lines, the first project's line before the second's. -/
theorem substitute_two_projects (fetch : String → Result Int) (p1 p2 : project)
    (picks : List Nat) (coins : Nat → Nat) (tarotsMarkdown readme : String)
    (hD : getRandomTarot picks coins = some tarotsMarkdown)
    (hP : occurrences projectsToken.data readme.data = 1)
    (hQ : occurrences tarotsToken.data readme.data = 1)
    (hMP : ¬ containsText (makeProjectMarkdown fetch [p1, p2]) projectsToken)
    (hMQ : ¬ containsText (makeProjectMarkdown fetch [p1, p2]) tarotsToken) :
    render fetch picks coins ⟨[p1, p2]⟩ readme
        = some (substitute readme (makeProjectMarkdown fetch [p1, p2]) tarotsMarkdown)
    ∧ ¬ containsText (substitute readme (makeProjectMarkdown fetch [p1, p2]) tarotsMarkdown)
          projectsToken
    ∧ ¬ containsText (substitute readme (makeProjectMarkdown fetch [p1, p2]) tarotsMarkdown)
          tarotsToken
    ∧ containsInOrder (substitute readme (makeProjectMarkdown fetch [p1, p2]) tarotsMarkdown)
          (projectLine fetch p1) (projectLine fetch p2) := by
  have hPne : projectsToken.data ≠ [] := by decide
  have hQne : tarotsToken.data ≠ [] := by decide
  obtain ⟨dHead, dLast, dBrace⟩ := tarotsMarkdown_facts picks coins tarotsMarkdown hD
  have mHead : (makeProjectMarkdown fetch [p1, p2]).data.head? = some '-' := by
    rw [makeProjectMarkdown_pair, List.head?_append, projectLine_head]
    rfl
  have mLast : (makeProjectMarkdown fetch [p1, p2]).data.getLast? = some '\n' := by
    rw [makeProjectMarkdown_pair, List.getLast?_append, projectLine_last]
    rfl
  have hPM : Separated projectsToken.data (makeProjectMarkdown fetch [p1, p2]).data :=
    separated_of_boundary _ _ '-' '\n' mHead mLast (by decide) (by decide) hMP
  have hQM : Separated tarotsToken.data (makeProjectMarkdown fetch [p1, p2]).data :=
    separated_of_boundary _ _ '-' '\n' mHead mLast (by decide) (by decide) hMQ
  have hPD : Separated projectsToken.data tarotsMarkdown.data :=
    separated_of_boundary _ _ '<' '>' dHead dLast (by decide) (by decide)
      (fun hin => dBrace (hin.subset (by decide)))
  have hQD : Separated tarotsToken.data tarotsMarkdown.data :=
    separated_of_boundary _ _ '<' '>' dHead dLast (by decide) (by decide)
      (fun hin => dBrace (hin.subset (by decide)))
  obtain ⟨hnoP, hnoQ, x, z, hxz⟩ := substitute_core projectsToken.data tarotsToken.data
    readme.data (makeProjectMarkdown fetch [p1, p2]).data tarotsMarkdown.data hPne hQne
    separated_tokens hQM hPM hQD hPD hP hQ
  have hdata : (substitute readme (makeProjectMarkdown fetch [p1, p2]) tarotsMarkdown).data
      = replaceAux tarotsToken.data tarotsMarkdown.data 0
          (replaceAux projectsToken.data (makeProjectMarkdown fetch [p1, p2]).data 0
            readme.data) := rfl
  refine ⟨?_, ?_, ?_, ?_⟩
  · simp [render, hD]
  · unfold containsText
    rw [hdata]
    exact (occurrences_eq_zero_iff _ hPne _).mp hnoP
  · unfold containsText
    rw [hdata]
    exact (occurrences_eq_zero_iff _ hQne _).mp hnoQ
  · refine ⟨x, [], z, ?_⟩
    rw [hdata, hxz, makeProjectMarkdown_pair]
    simp

theorem substitute_two_projects_witness :
    ¬ containsText (substitute sampleReadme (makeProjectMarkdown offline
        [plainProject, plainProject]) sampleTarots) projectsToken
    ∧ ¬ containsText (substitute sampleReadme (makeProjectMarkdown offline
        [plainProject, plainProject]) sampleTarots) tarotsToken
    ∧ containsInOrder (substitute sampleReadme (makeProjectMarkdown offline
        [plainProject, plainProject]) sampleTarots)
        (projectLine offline plainProject) (projectLine offline plainProject) :=
  (substitute_two_projects offline plainProject plainProject (List.replicate 78 0)
    (fun k => k) sampleTarots sampleReadme (by decide) (by decide) (by decide)
    (by unfold containsText; decide) (by unfold containsText; decide)).2

/-- C7 (as stated) fails: with a project whose description spells the project
placeholder, the template `sampleReadme` (each placeholder once) and a
decoration string produced by `getRandomTarot`, the document obtained by the
two substitutions still contains the project placeholder. -/
theorem substitute_placeholder_in_description :
    getRandomTarot (List.replicate 78 0) (fun k => k) = some sampleTarots
    ∧ occurrences projectsToken.data sampleReadme.data = 1
    ∧ occurrences tarotsToken.data sampleReadme.data = 1
    ∧ containsText (substitute sampleReadme (makeProjectMarkdown offline
        [echoProject, plainProject]) sampleTarots) projectsToken
    ∧ ¬ (∀ (fetch : String → Result Int) (p1 p2 : project) (picks : List Nat)
          (coins : Nat → Nat) (tarotsMarkdown readme : String),
          getRandomTarot picks coins = some tarotsMarkdown →
          occurrences projectsToken.data readme.data = 1 →
          occurrences tarotsToken.data readme.data = 1 →
          ¬ containsText (substitute readme (makeProjectMarkdown fetch [p1, p2])
              tarotsMarkdown) projectsToken
          ∧ ¬ containsText (substitute readme (makeProjectMarkdown fetch [p1, p2])
              tarotsMarkdown) tarotsToken
          ∧ containsInOrder (substitute readme (makeProjectMarkdown fetch [p1, p2])
              tarotsMarkdown) (projectLine fetch p1) (projectLine fetch p2)) := by
  have hD : getRandomTarot (List.replicate 78 0) (fun k => k) = some sampleTarots := by
    decide
  have hP : occurrences projectsToken.data sampleReadme.data = 1 := by decide
  have hQ : occurrences tarotsToken.data sampleReadme.data = 1 := by decide
  have hin : containsText (substitute sampleReadme (makeProjectMarkdown offline
      [echoProject, plainProject]) sampleTarots) projectsToken := by
    unfold containsText
    decide
  refine ⟨hD, hP, hQ, hin, ?_⟩
  intro h
  exact (h offline echoProject plainProject (List.replicate 78 0) (fun k => k)
    sampleTarots sampleReadme hD hP hQ).1 hin

end Update
